import Mathlib

/-!
Verification development for the ai-changelog repository.

This file gives a shallow embedding, in Lean, of the core components of the
repository — the embedding cache pipeline (`src/utils/rag.ts`,
`RAGService.createDocumentsWithEmbeddings` and friends), the round-robin
load balancers (`OllamaEmbeddingsBalancer`, `OllamaLoadBalancer`), the batch
worker pool, the impact-candidate finder, the tool-calling agent loop
(`ChangelogGenerator.analyzeImpactWithLangChainTools` in
`src/utils/ollama-balancer.ts`), and the `readFile` analysis tool
(`src/utils/changelog.ts`) — and proves or refutes the frozen specification
claims about them.

Modelling conventions:
- JavaScript strings are Lean `String`s; numbers that are used as counters
  or line counts are `Nat`; embedding vectors are `List Int` (their numeric
  contents are irrelevant to every claim).
- External collaborators that live outside the repository (the LangChain
  text splitter, the Ollama embedding backend, the reasoning backend, the
  GitHub content fetcher, the vector store's similarity search) are taken
  as function parameters: they are deterministic functions supplied by the
  environment, and the theorems quantify over them.
- JavaScript truthiness on optional strings (`undefined` and `""` are both
  falsy) is modelled by `jsTruthy`.
- The single-threaded JavaScript event loop makes the shared batch counter
  of the worker pool race-free; the only nondeterminism is the order in
  which workers deliver finished batches, modelled as an arbitrary
  permutation of the tagged batch results.
-/

namespace AIChangelog

/-! ## Generic list helpers -/

/-- Splits a list into consecutive batches of 20 elements
(`BATCH_SIZE = 20` in `createDocumentsWithEmbeddings`).
`go xs acc k`: `acc` holds the current batch reversed, `k` is the remaining
capacity of the current batch. -/
def chunk20Go {α : Type} : List α → List α → Nat → List (List α)
  | [], acc, _ => if acc.isEmpty then [] else [acc.reverse]
  | x :: xs, acc, 0 => acc.reverse :: chunk20Go xs [x] 19
  | x :: xs, acc, Nat.succ k => chunk20Go xs (x :: acc) k

/-- Splits a list into consecutive batches of 20 elements, exactly as the
loop `for (i = 0; i < n; i += BATCH_SIZE) batches.push(slice(i, i + 20))`. -/
def chunk20 {α : Type} (l : List α) : List (List α) :=
  chunk20Go l [] 20

/-- Tags each element of a list with its index, starting from `k`. -/
def enumFromK {α : Type} : Nat → List α → List (Nat × α)
  | _, [] => []
  | k, x :: xs => (k, x) :: enumFromK (k + 1) xs

/-- Inserts a tagged batch result into a list sorted by batch index
(modelling `results.sort((a, b) => a.index - b.index)`; the batch indices
are pairwise distinct, so any comparison sort yields the same output as
this insertion sort). -/
def insertByIdx {β : Type} (p : Nat × β) : List (Nat × β) → List (Nat × β)
  | [] => [p]
  | q :: qs => if p.1 ≤ q.1 then p :: q :: qs else q :: insertByIdx p qs

/-- Sorts tagged batch results by their batch index. -/
def sortByIdx {β : Type} : List (Nat × β) → List (Nat × β)
  | [] => []
  | p :: ps => insertByIdx p (sortByIdx ps)

/-! ## Round-robin load balancer (`OllamaEmbeddingsBalancer`,
`OllamaLoadBalancer.getNextServer` and the per-call failover loops of
`embedQuery` / `embedDocuments` / `invoke`). A server pool of size `n` is
identified with the indices `0 .. n-1` of the `servers` array; the health
of server `i` on the present call is `health i` (`some v` = the request
succeeds and returns `v`, `none` = it throws). -/

/-- The trace of server indices returned by `m` successive calls of
`getNextServer`, starting from cursor `cur`: each call returns the server
at `currentIndex` and advances the cursor modulo `n`. -/
def rrTrace (n : Nat) : Nat → Nat → List Nat
  | _, 0 => []
  | cur, Nat.succ m => cur :: rrTrace n ((cur + 1) % n) m

/-- The failover loop shared by `embedQuery`, `embedDocuments` and `invoke`:
up to `k` attempts, each taking the next round-robin server and returning
its answer on success, falling through to the next server on failure.
Returns (result, number of attempts actually made, list of server indices
tried, final cursor). The source sets `k = maxRetries = servers.length`. -/
def tryServers {α : Type} (n : Nat) (health : Nat → Option α) :
    Nat → Nat → Option α × Nat × List Nat × Nat
  | 0, cur => (none, 0, [], cur)
  | Nat.succ k, cur =>
    let idx := cur
    let cur' := (cur + 1) % n
    match health idx with
    | some v => (some v, 1, [idx], cur')
    | none =>
      let r := tryServers n health k cur'
      (r.1, r.2.1 + 1, idx :: r.2.2.1, r.2.2.2)

/-- A single `embedQuery` / `embedDocuments` call of
`OllamaEmbeddingsBalancer` on a pool of `n` servers, starting at cursor
`cur`: `maxRetries = n`, one attempt per round-robin server. -/
def embedCallLB {α : Type} (n : Nat) (health : Nat → Option α) (cur : Nat) :
    Option α × Nat × List Nat × Nat :=
  tryServers n health n cur

/-! ## Data model of `rag.ts` -/

/-- JavaScript truthiness of an optional string field: `undefined` and the
empty string are both falsy. -/
def jsTruthy (o : Option String) : Bool :=
  match o with
  | none => false
  | some s => !s.isEmpty

/-- A changed file, as produced by the GitHub collaborator
(`FileChange` in `src/types.ts`). -/
structure FileChange where
  filename : String
  status : String
  additions : Nat
  deletions : Nat
  changes : Nat
  patch : Option String
  content : Option String
deriving DecidableEq

/-- Document metadata. The source stores a plain JS object; the keys that
the core ever writes are exactly these six, each possibly absent. -/
structure Metadata where
  filename : Option String := none
  status : Option String := none
  additions : Option String := none
  deletions : Option String := none
  changes : Option String := none
  type : Option String := none
deriving DecidableEq

/-- A LangChain `Document`: page content plus metadata. -/
structure Doc where
  pageContent : String
  metadata : Metadata
deriving DecidableEq

/-- An embedding vector. The numeric contents are irrelevant to every
claim, so entries are plain integers. -/
abbrev Vec : Type := List Int

/-- A persisted cache record (`CachedEmbedding` in `rag.ts`): one JSON file
per content hash under `.cache/embeddings`. -/
structure CachedEmbedding where
  hash : String
  modelName : String
  documents : List Doc
  embeddings : List Vec
deriving DecidableEq

/-- The on-disk cache directory: an association list from content hash to
the persisted record (one file per hash; a later write replaces the file). -/
abbrev Cache : Type := List (String × CachedEmbedding)

/-- The deterministic collaborators of `RAGService`, taken as parameters:
the text splitter (`RecursiveCharacterTextSplitter`, deterministic for a
fixed configuration), the embedding backend restricted to one text
(`embedDocuments` maps it over a batch), the content hash
(`createHash("sha256")`), and the configured embedding model name. -/
structure RAGCtx where
  split : String → List String
  embedOne : String → Vec
  hashFn : String → String
  model : String

/-- Loads a cache record (`RAGService.loadFromCache`): absent file means
`null`; a stored model name different from the configured embedding model
invalidates the record (also `null`). Read failures are treated as absent
and are not modelled separately. -/
def loadFromCache (ctx : RAGCtx) (cache : Cache) (h : String) :
    Option (List Doc × List Vec) :=
  match cache.lookup h with
  | none => none
  | some ce =>
    if ce.modelName ≠ ctx.model then none
    else some (ce.documents, ce.embeddings)

/-- Persists a cache record (`RAGService.saveToCache`): writes the file for
`h`, replacing any previous record under the same hash. -/
def saveToCache (ctx : RAGCtx) (cache : Cache) (h : String)
    (docs : List Doc) (embs : List Vec) : Cache :=
  (h, ⟨h, ctx.model, docs, embs⟩) :: cache.filter (fun p => p.1 ≠ h)

/-- The full metadata attached to freshly split content chunks
(every numeric field is stored through `toString()`). -/
def metaFull (f : FileChange) : Metadata :=
  { filename := some f.filename
    status := some f.status
    additions := some (toString f.additions)
    deletions := some (toString f.deletions)
    changes := some (toString f.changes)
    type := none }

/-- Metadata re-annotation on a cache hit: the spread
`{...doc.metadata, filename, status, additions, deletions, changes}`
overwrites those five keys and keeps everything else (in particular the
`type` key restored from the cache). -/
def annotate (f : FileChange) (m : Metadata) : Metadata :=
  { m with
    filename := some f.filename
    status := some f.status
    additions := some (toString f.additions)
    deletions := some (toString f.deletions)
    changes := some (toString f.changes) }

/-- The extra diff document appended when the file has a (truthy) patch. -/
def patchDoc (f : FileChange) (p : String) : Doc :=
  { pageContent :=
      "파일: " ++ f.filename ++ "\n변경 타입: " ++ f.status ++ "\n\nDiff:\n" ++ p
    metadata :=
      { filename := some f.filename
        type := some "diff"
        status := some f.status } }

/-- Contributes 1 to the chunk count when the file has a truthy patch
(`file.patch ? 1 : 0`). -/
def patchBit (f : FileChange) : Nat :=
  if jsTruthy f.patch then 1 else 0

/-- The list consisting of the diff document when the patch is truthy. -/
def patchDocs (f : FileChange) : List Doc :=
  if jsTruthy f.patch then [patchDoc f (f.patch.getD "")] else []

/-- All documents produced for one cache-missed file: the split content
chunks with full metadata, then the diff document if a patch is present. -/
def chunkFile (ctx : RAGCtx) (f : FileChange) (c : String) : List Doc :=
  (ctx.split c).map (fun t => ⟨t, metaFull f⟩) ++ patchDocs f

/-- Accumulator of the first pass of `createDocumentsWithEmbeddings`. -/
structure Phase1Out where
  allDocs : List Doc
  allEmbs : List Vec
  uncached : List Doc
  hashes : List String
  hits : Nat
  misses : Nat
deriving DecidableEq

/-- First pass of `createDocumentsWithEmbeddings`: walk the changed files
in order; skip files with falsy content; on a cache hit append the
re-annotated cached documents and their stored vectors; on a miss collect
the freshly split chunks (plus diff document) and remember the content
hash. A hit whose record stores fewer vectors than documents would push
`undefined`s in JS; it is modelled with `getD i []`, and every record the
pipeline itself writes has equal lengths. -/
def phase1 (ctx : RAGCtx) (cache : Cache) (acc : Phase1Out) :
    List FileChange → Phase1Out
  | [] => acc
  | f :: fs =>
    if jsTruthy f.content then
      let c := f.content.getD ""
      let h := ctx.hashFn c
      match loadFromCache ctx cache h with
      | some (docs, embs) =>
        let annotated := docs.map (fun d => ⟨d.pageContent, annotate f d.metadata⟩)
        let taken := (List.range docs.length).map (fun i => embs.getD i [])
        phase1 ctx cache
          { acc with
            allDocs := acc.allDocs ++ annotated
            allEmbs := acc.allEmbs ++ taken
            hits := acc.hits + 1 } fs
      | none =>
        let chunks := chunkFile ctx f c
        phase1 ctx cache
          { acc with
            uncached := acc.uncached ++ chunks
            hashes := acc.hashes ++ [h]
            misses := acc.misses + 1 } fs
    else
      phase1 ctx cache acc fs

/-- Normalisation of the `type` metadata key on cache save:
`chunk.metadata.type || "content"`. -/
def normType (o : Option String) : String :=
  match o with
  | none => "content"
  | some t => if t = "" then "content" else t

/-- The per-file cache-save loop at the end of
`createDocumentsWithEmbeddings`. `contentFiles` is
`fileChanges.filter((f) => f.content)`; `fileIdx` runs from 0 to
`cacheMisses - 1` (`rem` is the remaining number of iterations); the file
consulted for the chunk count is `contentFiles[cacheHits + fileIdx]` — the
source's own indexing, reproduced exactly. -/
def saveLoop (ctx : RAGCtx) (contentFiles : List FileChange) (hits : Nat)
    (hashes : List String) (uncached : List Doc) (newEmbs : List Vec) :
    Nat → Nat → Nat → Cache → Cache
  | _, 0, _, cache => cache
  | fileIdx, Nat.succ rem, fileStart, cache =>
    match contentFiles.get? (hits + fileIdx) with
    | none => saveLoop ctx contentFiles hits hashes uncached newEmbs
        (fileIdx + 1) rem fileStart cache
    | some f =>
      if jsTruthy f.content then
        let fileChunks := ctx.split (f.content.getD "")
        let chunkCount := fileChunks.length + patchBit f
        let fileDocs := (uncached.drop fileStart).take chunkCount
        let fileEmbs := (newEmbs.drop fileStart).take chunkCount
        let chunksForCache := fileDocs.map
          (fun d => (⟨d.pageContent, { type := some (normType d.metadata.type) }⟩ : Doc))
        let h := hashes.getD fileIdx ""
        saveLoop ctx contentFiles hits hashes uncached newEmbs
          (fileIdx + 1) rem (fileStart + chunkCount)
          (saveToCache ctx cache h chunksForCache fileEmbs)
      else
        saveLoop ctx contentFiles hits hashes uncached newEmbs
          (fileIdx + 1) rem fileStart cache

/-- The result of one `createDocumentsWithEmbeddings` call, together with
the updated on-disk cache and the number of `embedDocuments` calls made to
the embedding backend (one per batch). -/
structure RunOut where
  documents : List Doc
  embeddings : List Vec
  cacheHits : Nat
  cacheMisses : Nat
  cache : Cache
  embedCalls : Nat
deriving DecidableEq

/-- `RAGService.createDocumentsWithEmbeddings`: first pass over the files
(cache hits and misses), then — only when there are uncached documents —
batch embedding through the worker pool and the per-file cache save loop.
The worker pool's reassembled vector list equals the uncached documents
mapped through the backend in order (that equality, for every completion
order, is proved separately as the batch-reordering theorem), so the
vectors are written here directly in input order; `embedCalls` counts one
backend call per batch of 20. -/
def createDocumentsWithEmbeddings (ctx : RAGCtx) (cache : Cache)
    (files : List FileChange) : RunOut :=
  let p1 := phase1 ctx cache ⟨[], [], [], [], 0, 0⟩ files
  if p1.uncached.isEmpty then
    { documents := p1.allDocs
      embeddings := p1.allEmbs
      cacheHits := p1.hits
      cacheMisses := p1.misses
      cache := cache
      embedCalls := 0 }
  else
    let newEmbs := p1.uncached.map (fun d => ctx.embedOne d.pageContent)
    let cache' := saveLoop ctx (files.filter (fun f => jsTruthy f.content))
      p1.hits p1.hashes p1.uncached newEmbs 0 p1.misses 0 cache
    { documents := p1.allDocs ++ p1.uncached
      embeddings := p1.allEmbs ++ newEmbs
      cacheHits := p1.hits
      cacheMisses := p1.misses
      cache := cache'
      embedCalls := (chunk20 p1.uncached).length }

/-! ## Impact-candidate finder (`RAGService.findAffectedFileCandidates`).
Identifier extraction (`extractIdentifiers`, a battery of regular
expressions) and the vector-store similarity search (which depends on the
embedding backend and the indexed corpus) are taken as parameters
`extract` and `search`; the selection of top files, the per-file /
per-identifier / per-result loops, the self-exclusion test, the
deduplication set and the global cap of 7 are reproduced from the source.
A search result is represented by its `metadata.filename`, with `""`
standing for an absent (falsy) filename. -/

/-- A candidate produced by `findAffectedFileCandidates`. -/
structure Candidate where
  filename : String
  identifier : String
  reason : String
deriving DecidableEq

/-- The rationale string attached to a candidate:
`` `${file.filename}에서 변경된 ${identifier}를 사용` ``. -/
def mkReason (src ident : String) : String :=
  src ++ "에서 변경된 " ++ ident ++ "를 사용"

/-- Loop state: the candidate list and the `seenFiles` set. -/
structure FindState where
  candidates : List Candidate
  seen : List String
deriving DecidableEq

/-- Inner loop over the similarity-search results of one identifier:
skip falsy filenames, the originating file itself and already-seen files;
push a candidate otherwise; stop early at the global cap of 7. -/
def procDocs (fname ident : String) : List String → FindState → FindState
  | [], st => st
  | d :: ds, st =>
    if d ≠ "" ∧ d ≠ fname ∧ d ∉ st.seen then
      let st' : FindState :=
        ⟨st.candidates ++ [⟨d, ident, mkReason fname ident⟩], d :: st.seen⟩
      if 7 ≤ st'.candidates.length then st'
      else procDocs fname ident ds st'
    else procDocs fname ident ds st

/-- Middle loop over the (at most 3) identifiers of one file; each
identifier is sent to the vector store with `k = 2`. -/
def procIdents (fname : String) (search : String → Nat → List String) :
    List String → FindState → FindState
  | [], st => st
  | i :: is, st =>
    let st' := procDocs fname i (search i 2) st
    if 7 ≤ st'.candidates.length then st'
    else procIdents fname search is st'

/-- Outer loop over the selected top files. -/
def procFiles (extract : FileChange → List String)
    (search : String → Nat → List String) :
    List FileChange → FindState → FindState
  | [], st => st
  | f :: fs, st =>
    let ids := extract f
    if ids.isEmpty then procFiles extract search fs st
    else
      let st' := procIdents f.filename search (ids.take 3) st
      if 7 ≤ st'.candidates.length then st'
      else procFiles extract search fs st'

/-- Stable insertion of a file into a list sorted by `changes`
descending, equal keys keeping their original order — the behaviour of
the (stable) JS `sort((a, b) => b.changes - a.changes)`. -/
def insertByChanges (f : FileChange) : List FileChange → List FileChange
  | [] => [f]
  | g :: gs => if g.changes ≤ f.changes then f :: g :: gs
      else g :: insertByChanges f gs

/-- Stable sort of the changed files by `changes`, descending. -/
def sortByChangesDesc : List FileChange → List FileChange
  | [] => []
  | f :: fs => insertByChanges f (sortByChangesDesc fs)

/-- The top files analysed by the candidate finder: files with truthy
content or patch, sorted by total changed lines descending, first 5. -/
def topFiles (files : List FileChange) : List FileChange :=
  (sortByChangesDesc (files.filter
    (fun f => jsTruthy f.content || jsTruthy f.patch))).take 5

/-- `RAGService.findAffectedFileCandidates` (with a populated vector
store): the candidate list produced for the given changed files. -/
def findAffectedFileCandidates (extract : FileChange → List String)
    (search : String → Nat → List String) (files : List FileChange) :
    List Candidate :=
  (procFiles extract search (topFiles files) ⟨[], []⟩).candidates

/-! ## Tool-calling agent loop
(`ChangelogGenerator.analyzeImpactWithLangChainTools`,
`src/utils/ollama-balancer.ts`). The reasoning backend is a function from
the current conversation to a response (an arbitrary such function covers
every deterministic backend behaviour); a raw string response `s` is the
special case `⟨s, []⟩`. A tool is a name together with a function from the
(serialised) arguments to either a result string or a thrown error
message. -/

/-- A structured tool-call request inside a backend response. -/
structure ToolCall where
  name : String
  args : String
  callId : String
deriving DecidableEq

/-- A backend response: text content plus zero or more tool calls. -/
structure AgentResponse where
  content : String
  toolCalls : List ToolCall
deriving DecidableEq

/-- A conversation message: the seeded / nudge user messages, the pushed
assistant responses, and tool-result messages. -/
inductive Msg where
  | user (content : String)
  | assistant (r : AgentResponse)
  | tool (content : String) (callId : String)
deriving DecidableEq

/-- The `content` field read back from a conversation entry. -/
def msgContent : Msg → String
  | .user c => c
  | .assistant r => r.content
  | .tool c _ => c

/-- One executable tool of the fixed capability set. -/
structure AgentTool where
  name : String
  run : String → Except String String

/-- Executes the requested tool calls: an unknown tool name produces no
tool message (only a warning); a thrown exception becomes a synthetic
error-text result `` `오류: ${errorMsg}` ``. -/
def toolResultMsgs (tools : List AgentTool) (tcs : List ToolCall) : List Msg :=
  tcs.filterMap (fun tc =>
    match tools.find? (fun t => t.name == tc.name) with
    | none => none
    | some t =>
      some (Msg.tool
        (match t.run tc.args with
          | .ok r => r
          | .error e => "오류: " ++ e) tc.callId))

/-- The test `responseContent && responseContent.trim().length > 0`: the
content has at least one non-whitespace character. -/
def hasText (s : String) : Bool :=
  s.data.any (fun c => !c.isWhitespace)

/-- The continuation nudge appended when a response has neither tool calls
nor content. -/
def nudge : String :=
  "분석을 계속해주세요. 필요한 파일을 read_file로 읽거나, 코드를 search_code로 검색하여 영향 분석을 완료해주세요."

/-- The iteration budget of the tool-calling loop. -/
def MAX_ITERATIONS : Nat := 40

/-- Fallback used when the loop exhausts its budget and the last
conversation entry has empty content. -/
def fallbackDone : String := "영향 분석을 완료했습니다."

/-- Fallback used when no analysis was produced at all. -/
def fallbackNoSummary : String :=
  "영향 분석을 완료했지만 최종 요약을 생성하지 못했습니다."

/-- The body of the `for (iteration …)` loop: at each remaining step, ask
the backend; with tool calls, push the response and the tool results and
continue; with non-blank content, stop with that content as the final
analysis; otherwise push the empty response and a nudge user message and
continue. Returns (final analysis if the loop broke, final conversation,
number of backend invocations). -/
def agentLoop (backend : List Msg → AgentResponse) (tools : List AgentTool) :
    Nat → List Msg → Nat → Option String × List Msg × Nat
  | 0, conv, calls => (none, conv, calls)
  | Nat.succ n, conv, calls =>
    let r := backend conv
    if r.toolCalls.isEmpty then
      if hasText r.content then (some r.content, conv, calls + 1)
      else
        agentLoop backend tools n
          (conv ++ [Msg.assistant r, Msg.user nudge]) (calls + 1)
    else
      agentLoop backend tools n
        (conv ++ Msg.assistant r :: toolResultMsgs tools r.toolCalls) (calls + 1)

/-- The outcome of one agent run: the returned text, the final
conversation, and how many times the reasoning backend was invoked. -/
structure AgentOut where
  text : String
  conv : List Msg
  backendCalls : Nat

/-- `analyzeImpactWithLangChainTools`: seed the conversation with the
analysis prompt, run the loop for at most `MAX_ITERATIONS` iterations, and
on exhaustion fall back to the content of the last conversation entry
(or a fixed text when that content is empty / the conversation never
grew). -/
def analyzeImpactWithLangChainTools (backend : List Msg → AgentResponse)
    (tools : List AgentTool) (prompt : String) : AgentOut :=
  match agentLoop backend tools MAX_ITERATIONS [Msg.user prompt] 0 with
  | (some t, conv, calls) => ⟨t, conv, calls⟩
  | (none, conv, calls) =>
    let fa :=
      if 1 < conv.length then
        let last := (conv.getLast?).getD (Msg.user "")
        if msgContent last = "" then fallbackDone else msgContent last
      else ""
    ⟨if fa = "" then fallbackNoSummary else fa, conv, calls⟩

/-! ## The `readFile` analysis tool (`CodeAnalysisTools.readFile`,
`src/utils/changelog.ts`), invoked without a line range. The file content
comes from the per-run file cache or the GitHub fetcher; the claim is
about the rendering of a fetched content string. -/

/-- Splits a character list at newline characters, with JavaScript
`split("\n")` semantics: the empty text yields one empty segment, and a
trailing newline yields a trailing empty segment. -/
def splitNL : List Char → List (List Char)
  | [] => [[]]
  | c :: cs =>
    match splitNL cs with
    | [] => [[c]]
    | l :: ls => if c = '\n' then [] :: l :: ls else (c :: l) :: ls

/-- `content.split("\n")` as a list of strings. -/
def splitLines (s : String) : List String :=
  (splitNL s.data).map (fun cs => String.mk cs)

/-- Renders lines numbered from `k`, one per element:
`` `${idx + 1}: ${line}` ``. -/
def numberFrom : Nat → List String → List String
  | _, [] => []
  | k, l :: ls => (toString k ++ ": " ++ l) :: numberFrom (k + 1) ls

/-- `CodeAnalysisTools.readFile` on a fetched content string, with no line
range: more than 500 lines are truncated to the first 500 with an omission
note, shorter files are rendered in full. -/
def readFileNoRange (path content : String) : String :=
  let lines := splitLines content
  if lines.length > 500 then
    "파일: " ++ path ++ " (" ++ toString lines.length ++ "줄, 처음 500줄만 표시)\n\n"
      ++ String.intercalate "\n" (numberFrom 1 (lines.take 500))
      ++ "\n\n... (" ++ toString (lines.length - 500) ++ "줄 생략)"
  else
    "파일: " ++ path ++ " (" ++ toString lines.length ++ "줄)\n\n"
      ++ String.intercalate "\n" (numberFrom 1 lines)

/-! ## Batch worker pool reassembly (`createDocumentsWithEmbeddings`,
lines 242–324). The uncached chunk texts are split into batches of 20;
workers pull batch indices from a shared counter (race-free on the JS
event loop, so each batch is processed exactly once) and push
`{index, embeddings}` records in completion order; the records are then
sorted by index and flattened. A completion schedule is therefore an
arbitrary permutation of the tagged per-batch results. -/

/-- The canonical tagged batch results of an input chunk list: batch `i`
paired with its texts sent through the embedding backend in order. All
pool servers run the same configured embedding model, modelled by the
single backend function `embedOne`. -/
def taggedBatchResults (embedOne : String → Vec) (texts : List String) :
    List (Nat × List Vec) :=
  enumFromK 0 ((chunk20 texts).map (fun b => b.map embedOne))

/-- Reassembly of the collected worker results: sort by original batch
index, then flatten (`results.sort((a, b) => a.index - b.index)` followed
by pushing each batch's embeddings). -/
def reassembleBatches (results : List (Nat × List Vec)) : List Vec :=
  ((sortByIdx results).map (fun p => p.2)).flatten

/-- Written from the claim's words for the readFile refinement: the
truncated listing returned for a file of more than 500 lines — the header
with the total line count, the first 500 lines numbered, and a note of how
many lines were omitted. -/
def truncatedListing (path : String) (lines : List String) : String :=
  "파일: " ++ path ++ " (" ++ toString lines.length ++ "줄, 처음 500줄만 표시)\n\n"
    ++ String.intercalate "\n" (numberFrom 1 (lines.take 500))
    ++ "\n\n... (" ++ toString (lines.length - 500) ++ "줄 생략)"

/-- Written from the claim's words: the full listing returned for a file
of at most 500 lines — every line, numbered. -/
def fullListing (path : String) (lines : List String) : String :=
  "파일: " ++ path ++ " (" ++ toString lines.length ++ "줄)\n\n"
    ++ String.intercalate "\n" (numberFrom 1 lines)

/-- The backend that always answers with empty content and no tool calls. -/
def emptyBackend : List Msg → AgentResponse := fun _ => ⟨"", []⟩

/-- Invariant of the candidate-finder loops, parametrised by the set `S`
of filenames of the analysed top files: every candidate accumulated so far
records in its rationale a source filename from `S` (the changed file
whose identifier triggered it), and the candidate's own filename differs
from that source filename. -/
def FindInv (S : List String) (st : FindState) : Prop :=
  ∀ c ∈ st.candidates,
    ∃ src ∈ S, c.reason = mkReason src c.identifier ∧ c.filename ≠ src

/-- Concrete identifier extraction for the C1 scenario: the changed file
`a.ts`, whose content is `function findMany()`, yields the identifier
`findMany` under the source's regex battery; the second file yields
nothing. -/
def cxExtract : FileChange → List String :=
  fun f => if f.filename = "a.ts" then ["findMany"] else []

/-- Concrete similarity search for the C1 scenario: the vector store was
indexed from the changed files themselves, so a chunk of the changed file
`b.ts` is the nearest document for `findMany`. -/
def cxSearch : String → Nat → List String :=
  fun _ _ => ["b.ts"]

/-- The two changed files of the C1 scenario. -/
def cxFiles : List FileChange :=
  [⟨"a.ts", "modified", 10, 0, 10, none, some "function findMany()"⟩,
   ⟨"b.ts", "modified", 1, 0, 1, none, some "function other()"⟩]

/-- Invariant of the persisted cache: every record stores as many
embedding vectors as documents. -/
def CacheLenInv (cache : Cache) : Prop :=
  ∀ e ∈ cache, e.2.documents.length = e.2.embeddings.length

/-- A concrete `RAGService` configuration for the cache scenarios: an
identity-style splitter (one chunk per content), a constant embedding
backend, the identity digest and model `m1`. -/
def ctx0 : RAGCtx := ⟨fun s => [s], fun _ => [1], fun s => s, "m1"⟩

/-- A concrete changed file for the cache scenarios. -/
def f0 : FileChange :=
  ⟨"a.ts", "modified", 1, 0, 1, none, some "function findMany()"⟩

/-- A cache directory holding one record for the content of `f0`, written
under the model identity `m0`, different from the configured `m1`. -/
def cacheStale : Cache :=
  [("function findMany()", ⟨"function findMany()", "m0", [], [[9]]⟩)]

/-- A concrete embedding backend for the C4 scenario. -/
def exEmbed : String → Vec := fun s => [(s.length : Int)]

/-- A concrete chunk-text list for the C4 scenario, long enough to be
split into two batches. -/
def exTexts : List String := List.replicate 21 "text"

/-! ## Theorems: round-robin selection and failover (C5, C8) -/

theorem rrTrace_eq_map (n : Nat) :
    ∀ (m cur : Nat), cur < n →
      rrTrace n cur m = (List.range m).map (fun j => (cur + j) % n) := by
  intro m
  induction m with
  | zero => intro cur _; rfl
  | succ m ih =>
    intro cur hc
    have hn : 0 < n := Nat.lt_of_le_of_lt (Nat.zero_le cur) hc
    have hcur' : (cur + 1) % n < n := Nat.mod_lt _ hn
    rw [rrTrace, ih _ hcur', List.range_succ_eq_map]
    simp only [List.map_cons, List.map_map]
    refine List.cons_eq_cons.mpr ⟨?_, ?_⟩
    · simp [Nat.mod_eq_of_lt hc]
    · apply List.map_congr_left
      intro j _
      simp only [Function.comp_apply]
      rw [Nat.mod_add_mod]
      congr 1
      omega

theorem rr_coverage {n : Nat} (i cur : Nat) (hi : i < n) (hc : cur < n) :
    ∃ j, j < n ∧ (cur + j) % n = i := by
  by_cases h : cur ≤ i
  · refine ⟨i - cur, by omega, ?_⟩
    have hj : cur + (i - cur) = i := by omega
    rw [hj, Nat.mod_eq_of_lt hi]
  · refine ⟨n - cur + i, by omega, ?_⟩
    have hj : cur + (n - cur + i) = n + i := by omega
    rw [hj, Nat.add_mod_left, Nat.mod_eq_of_lt hi]

theorem rr_window_nodup (n cur : Nat) :
    ((List.range n).map (fun j => (cur + j) % n)).Nodup := by
  rcases Nat.eq_zero_or_pos n with hn | hn
  · subst hn; simp
  apply List.Nodup.map_on ?_ (List.nodup_range n)
  intro a ha b hb hab
  simp only [List.mem_range] at ha hb
  have h1 : cur + a ≡ cur + b [MOD n] := hab
  have h2 : a ≡ b [MOD n] := Nat.ModEq.add_left_cancel' cur h1
  have h3 : a % n = b % n := h2
  rwa [Nat.mod_eq_of_lt ha, Nat.mod_eq_of_lt hb] at h3

theorem count_range (i n : Nat) :
    (List.range n).count i = if i < n then 1 else 0 := by
  induction n with
  | zero => simp
  | succ n ih =>
    rw [List.range_succ, List.count_append, ih]
    by_cases h : i = n
    · subst h; simp
    · have : (List.count i [n]) = 0 := by
        simp [List.count_cons, h]
      rw [this]
      by_cases h2 : i < n
      · have : i < n + 1 := by omega
        simp [h2, this]
      · have : ¬ i < n + 1 := by omega
        simp [h2, this]

theorem tryServers_attempts_le {α : Type} (n : Nat) (health : Nat → Option α) :
    ∀ (k cur : Nat), (tryServers n health k cur).2.1 ≤ k := by
  intro k
  induction k with
  | zero => intro cur; simp [tryServers]
  | succ k ih =>
    intro cur
    simp only [tryServers]
    cases h : health cur with
    | some v => simp
    | none =>
      simp only []
      have := ih ((cur + 1) % n)
      omega

theorem tryServers_allFail {α : Type} {n : Nat} {health : Nat → Option α}
    (hn : 0 < n) (hall : ∀ i, i < n → health i = none) :
    ∀ (k cur : Nat), cur < n →
      (tryServers n health k cur).1 = none ∧
      (tryServers n health k cur).2.1 = k ∧
      (tryServers n health k cur).2.2.1 =
        (List.range k).map (fun j => (cur + j) % n) := by
  intro k
  induction k with
  | zero => intro cur _; exact ⟨rfl, rfl, rfl⟩
  | succ k ih =>
    intro cur hc
    have hcur : health cur = none := hall cur hc
    have hcur' : (cur + 1) % n < n := Nat.mod_lt _ hn
    obtain ⟨h1, h2, h3⟩ := ih ((cur + 1) % n) hcur'
    simp only [tryServers, hcur]
    refine ⟨h1, by omega, ?_⟩
    rw [h3, List.range_succ_eq_map]
    simp only [List.map_cons, List.map_map]
    refine List.cons_eq_cons.mpr ⟨?_, ?_⟩
    · simp [Nat.mod_eq_of_lt hc]
    · apply List.map_congr_left
      intro j _
      simp only [Function.comp_apply]
      rw [Nat.mod_add_mod]
      congr 1
      omega

theorem tryServers_none_imp {α : Type} {n : Nat} {health : Nat → Option α}
    (hn : 0 < n) :
    ∀ (k cur : Nat), cur < n → (tryServers n health k cur).1 = none →
      ∀ j, j < k → health ((cur + j) % n) = none := by
  intro k
  induction k with
  | zero => intro cur _ _ j hj; omega
  | succ k ih =>
    intro cur hc hres j hj
    cases h : health cur with
    | some v =>
      exfalso
      simp only [tryServers, h] at hres
      exact Option.noConfusion hres
    | none =>
      simp only [tryServers, h] at hres
      match j with
      | 0 =>
        rw [Nat.add_zero, Nat.mod_eq_of_lt hc]
        exact h
      | Nat.succ j' =>
        have hcur' : (cur + 1) % n < n := Nat.mod_lt _ hn
        have := ih ((cur + 1) % n) hcur' hres j' (by omega)
        rw [Nat.mod_add_mod] at this
        have harg : cur + 1 + j' = cur + (j' + 1) := by omega
        rwa [harg] at this

/-- Claim C5: for a pool of N configured embedding servers in which exactly
one server succeeds, a single `embedDocuments` / `embedQuery` call
succeeds using at most N attempts; when every server fails, the call
throws after exactly N attempts, one attempt per distinct server, in
round-robin order starting at the current cursor. -/
theorem C5_failover (n : Nat) (health : Nat → Option Vec) (cur : Nat)
    (hc : cur < n) :
    ((∃ i, i < n ∧ (health i).isSome ∧
        ∀ j, j < n → (health j).isSome → j = i) →
      (embedCallLB n health cur).1.isSome ∧
      (embedCallLB n health cur).2.1 ≤ n) ∧
    ((∀ i, i < n → health i = none) →
      (embedCallLB n health cur).1 = none ∧
      (embedCallLB n health cur).2.1 = n ∧
      (embedCallLB n health cur).2.2.1 =
        (List.range n).map (fun j => (cur + j) % n) ∧
      (embedCallLB n health cur).2.2.1.Nodup) := by
  have hn : 0 < n := Nat.lt_of_le_of_lt (Nat.zero_le cur) hc
  constructor
  · rintro ⟨i, hi, hsome, _⟩
    refine ⟨?_, tryServers_attempts_le n health n cur⟩
    by_contra hnone
    rw [Option.not_isSome_iff_eq_none] at hnone
    have hall := tryServers_none_imp hn n cur hc hnone
    obtain ⟨j, hj, hji⟩ := rr_coverage i cur hi hc
    have h4 := hall j hj
    rw [hji] at h4
    simp [h4] at hsome
  · intro hall
    obtain ⟨h1, h2, h3⟩ := tryServers_allFail hn hall n cur hc
    exact ⟨h1, h2, h3, h3 ▸ rr_window_nodup n cur⟩

/-- Witness for C5 at a concrete pool: three servers, cursor 0; first with
only server 1 healthy, then with no healthy server. -/
theorem C5_failover_witness :
    ((embedCallLB 3 (fun i => if i = 1 then some [7] else none) 0).1.isSome ∧
     (embedCallLB 3 (fun i => if i = 1 then some [7] else none) 0).2.1 ≤ 3) ∧
    ((embedCallLB 3 (fun _ => (none : Option Vec)) 0).1 = none ∧
     (embedCallLB 3 (fun _ => (none : Option Vec)) 0).2.1 = 3 ∧
     (embedCallLB 3 (fun _ => (none : Option Vec)) 0).2.2.1 =
       (List.range 3).map (fun j => (0 + j) % 3) ∧
     (embedCallLB 3 (fun _ => (none : Option Vec)) 0).2.2.1.Nodup) := by
  constructor
  · exact (C5_failover 3 (fun i => if i = 1 then some [7] else none) 0
      (by decide)).1
      ⟨1, by decide, by decide, by decide⟩
  · exact (C5_failover 3 (fun _ => (none : Option Vec)) 0 (by decide)).2
      (fun i _ => rfl)

/-- Claim C8: for a pool of N servers, 2N successive calls of
`getNextServer` (starting from the initial cursor 0) return the server
indices `0, …, N-1, 0, …, N-1`: each server exactly twice, in
configuration order, wrapping around after the N-th selection. -/
theorem C8_round_robin (n : Nat) (hn : 0 < n) :
    rrTrace n 0 (n + n) = List.range n ++ List.range n ∧
    ∀ i, i < n → (rrTrace n 0 (n + n)).count i = 2 := by
  have heq : rrTrace n 0 (n + n) = List.range n ++ List.range n := by
    rw [rrTrace_eq_map n (n + n) 0 hn]
    have hsplit : List.range (n + n) =
        List.range n ++ (List.range n).map (fun j => n + j) := by
      rw [List.range_add]
    rw [hsplit, List.map_append, List.map_map]
    congr 1
    · refine (List.map_congr_left ?_).trans (List.map_id _)
      intro j hj
      simp only [List.mem_range] at hj
      simp [Nat.mod_eq_of_lt hj, id_eq]
    · refine (List.map_congr_left ?_).trans (List.map_id _)
      intro j hj
      simp only [List.mem_range] at hj
      simp only [Function.comp_apply, id_eq]
      rw [Nat.zero_add, Nat.add_mod_left, Nat.mod_eq_of_lt hj]
  refine ⟨heq, ?_⟩
  intro i hi
  rw [heq, List.count_append, count_range]
  simp [hi]

/-- Witness for C8 at a concrete pool of three servers. -/
theorem C8_round_robin_witness :
    rrTrace 3 0 (3 + 3) = List.range 3 ++ List.range 3 ∧
    ∀ i, i < 3 → (rrTrace 3 0 (3 + 3)).count i = 2 :=
  C8_round_robin 3 (by decide)

/-! ## Theorems: the readFile tool (C10) -/

/-- Claim C10: when the readFile tool is invoked without a line range on an
existing file, a content of more than 500 lines is rendered as the first
500 lines only, with a note of how many lines were omitted; a content of at
most 500 lines is rendered in full. -/
theorem C10_readFile_truncation (path content : String) :
    readFileNoRange path content =
      if 500 < (splitLines content).length then
        truncatedListing path (splitLines content)
      else
        fullListing path (splitLines content) := by
  rfl

/-! ## Theorems: agent-loop termination and exhaustion fallback (C3, C9) -/

theorem agentLoop_calls_le (backend : List Msg → AgentResponse)
    (tools : List AgentTool) :
    ∀ (fuel : Nat) (conv : List Msg) (calls : Nat),
      (agentLoop backend tools fuel conv calls).2.2 ≤ calls + fuel := by
  intro fuel
  induction fuel with
  | zero => intro conv calls; simp [agentLoop]
  | succ n ih =>
    intro conv calls
    simp only [agentLoop]
    by_cases ht : (backend conv).toolCalls.isEmpty
    · by_cases hc : hasText (backend conv).content
      · simp [ht, hc]
      · simp only [ht, hc, if_true, if_false, Bool.false_eq_true]
        have := ih (conv ++ [Msg.assistant (backend conv), Msg.user nudge])
          (calls + 1)
        omega
    · simp only [ht, if_false, Bool.false_eq_true]
      have := ih (conv ++ Msg.assistant (backend conv) ::
        toolResultMsgs tools (backend conv).toolCalls) (calls + 1)
      omega

theorem hasText_ne_empty {s : String} (h : hasText s = true) : s ≠ "" := by
  intro he
  subst he
  simp [hasText] at h

/-- Claim C3: for every reasoning-backend behaviour (including one that
requests tools on every turn, or always returns empty text) and every tool
set, the tool-calling agent loop terminates — it is a total function of
its fuel — after at most MAX_ITERATIONS = 40 backend invocations, and
returns a non-empty text result. -/
theorem C3_agent_termination (backend : List Msg → AgentResponse)
    (tools : List AgentTool) (prompt : String) :
    (analyzeImpactWithLangChainTools backend tools prompt).text ≠ "" ∧
    (analyzeImpactWithLangChainTools backend tools prompt).backendCalls ≤
      MAX_ITERATIONS := by
  have hcalls := agentLoop_calls_le backend tools MAX_ITERATIONS
    [Msg.user prompt] 0
  unfold analyzeImpactWithLangChainTools
  rcases hloop : agentLoop backend tools MAX_ITERATIONS [Msg.user prompt] 0
    with ⟨res, conv, calls⟩
  rw [hloop] at hcalls
  cases res with
  | some t =>
    refine ⟨?_, by simpa using hcalls⟩
    have ht : hasText t = true := by
      have : ∀ (fuel : Nat) (cv : List Msg) (cl : Nat) (t' : String)
          (cv' : List Msg) (cl' : Nat),
          agentLoop backend tools fuel cv cl = (some t', cv', cl') →
          hasText t' = true := by
        intro fuel
        induction fuel with
        | zero => intro cv cl t' cv' cl' h; simp [agentLoop] at h
        | succ n ih =>
          intro cv cl t' cv' cl' h
          simp only [agentLoop] at h
          by_cases htc : (backend cv).toolCalls.isEmpty
          · by_cases hct : hasText (backend cv).content
            · simp only [htc, hct, if_true] at h
              obtain ⟨h1, _, _⟩ := Prod.mk.injEq .. ▸ h
              cases h
              exact hct
            · simp only [htc, hct, if_true, if_false, Bool.false_eq_true] at h
              exact ih _ _ _ _ _ h
          · simp only [htc, if_false, Bool.false_eq_true] at h
            exact ih _ _ _ _ _ h
      exact this MAX_ITERATIONS [Msg.user prompt] 0 t conv calls hloop
    exact hasText_ne_empty ht
  | none =>
    refine ⟨?_, by simpa using hcalls⟩
    by_cases hlen : 1 < conv.length
    · simp only [hlen, if_true]
      by_cases hlast : msgContent ((conv.getLast?).getD (Msg.user "")) = ""
      · simp [hlast, fallbackDone]
      · simp [hlast]
    · simp [hlen, fallbackNoSummary]

/-- Counterexample to claim C9 as stated: run the agent with a backend
that always returns empty text and no tool calls. The budget is exhausted
with no non-empty assistant message ever observed, so the claim requires
the fixed "analysis incomplete" fallback; the code instead returns the
content of the last conversation entry, which is the continuation-nudge
user message — not an assistant message and not either fixed fallback
text. -/
theorem C9_counterexample :
    (analyzeImpactWithLangChainTools emptyBackend [] "analyze").text = nudge ∧
    ((analyzeImpactWithLangChainTools emptyBackend [] "analyze").conv.all
      (fun m => match m with
        | .assistant r => r.content == ""
        | _ => true)) = true ∧
    nudge ≠ fallbackDone ∧
    nudge ≠ fallbackNoSummary := by
  refine ⟨?_, ?_, by decide, by decide⟩
  · rfl
  · rfl

/-- Claim C9 (amended): whenever the agent loop exhausts MAX_ITERATIONS
without producing a final analysis, it returns the content of the last
conversation entry — whatever its role: a tool result, or the
continuation-nudge user message — falling back to the fixed text
"영향 분석을 완료했습니다." when that content is empty (and to the fixed
text "영향 분석을 완료했지만 최종 요약을 생성하지 못했습니다." in the
vacuous case that the conversation never grew beyond the seed message). -/
theorem C9_exhaustion_returns_last_entry (backend : List Msg → AgentResponse)
    (tools : List AgentTool) (prompt : String) (conv : List Msg) (calls : Nat)
    (hex : agentLoop backend tools MAX_ITERATIONS [Msg.user prompt] 0 =
      (none, conv, calls)) :
    (analyzeImpactWithLangChainTools backend tools prompt).text =
      if 1 < conv.length then
        if msgContent ((conv.getLast?).getD (Msg.user "")) = "" then
          fallbackDone
        else msgContent ((conv.getLast?).getD (Msg.user ""))
      else fallbackNoSummary := by
  unfold analyzeImpactWithLangChainTools
  rw [hex]
  by_cases hlen : 1 < conv.length
  · simp only [hlen, if_true]
    by_cases hlast : msgContent ((conv.getLast?).getD (Msg.user "")) = ""
    · simp [hlast, fallbackDone]
    · simp [hlast]
  · simp [hlen, fallbackNoSummary]

/-- Witness for the amended C9 at the concrete always-empty backend. -/
theorem C9_exhaustion_witness :
    (analyzeImpactWithLangChainTools emptyBackend [] "analyze").text =
      (if 1 <
          (agentLoop emptyBackend [] MAX_ITERATIONS [Msg.user "analyze"] 0).2.1.length
        then
        if msgContent
            (((agentLoop emptyBackend [] MAX_ITERATIONS
              [Msg.user "analyze"] 0).2.1.getLast?).getD (Msg.user "")) = ""
          then fallbackDone
        else msgContent
            (((agentLoop emptyBackend [] MAX_ITERATIONS
              [Msg.user "analyze"] 0).2.1.getLast?).getD (Msg.user ""))
      else fallbackNoSummary) :=
  C9_exhaustion_returns_last_entry emptyBackend [] "analyze"
    (agentLoop emptyBackend [] MAX_ITERATIONS [Msg.user "analyze"] 0).2.1
    (agentLoop emptyBackend [] MAX_ITERATIONS [Msg.user "analyze"] 0).2.2
    rfl

/-! ## Theorems: candidate self-exclusion (C1) -/

theorem procDocs_inv (S : List String) (fname ident : String)
    (hf : fname ∈ S) :
    ∀ (docs : List String) (st : FindState), FindInv S st →
      FindInv S (procDocs fname ident docs st) := by
  intro docs
  induction docs with
  | nil => intro st h; exact h
  | cons d ds ih =>
    intro st h
    rw [procDocs]
    by_cases hg : d ≠ "" ∧ d ≠ fname ∧ d ∉ st.seen
    · rw [if_pos hg]
      have hinv' : FindInv S
          ⟨st.candidates ++ [⟨d, ident, mkReason fname ident⟩], d :: st.seen⟩ := by
        intro c hc
        rcases List.mem_append.mp hc with hold | hnew
        · exact h c hold
        · rcases List.mem_singleton.mp hnew with rfl
          exact ⟨fname, hf, rfl, hg.2.1⟩
      by_cases hcap : 7 ≤
          (FindState.mk (st.candidates ++ [⟨d, ident, mkReason fname ident⟩])
            (d :: st.seen)).candidates.length
      · rw [if_pos hcap]
        exact hinv'
      · rw [if_neg hcap]
        exact ih _ hinv'
    · rw [if_neg hg]
      exact ih _ h

theorem procIdents_inv (S : List String) (fname : String)
    (search : String → Nat → List String) (hf : fname ∈ S) :
    ∀ (idents : List String) (st : FindState), FindInv S st →
      FindInv S (procIdents fname search idents st) := by
  intro idents
  induction idents with
  | nil => intro st h; exact h
  | cons i is ih =>
    intro st h
    rw [procIdents]
    have h' := procDocs_inv S fname i hf (search i 2) st h
    by_cases hcap : 7 ≤ (procDocs fname i (search i 2) st).candidates.length
    · rw [if_pos hcap]; exact h'
    · rw [if_neg hcap]; exact ih _ h'

theorem procFiles_inv (S : List String)
    (extract : FileChange → List String)
    (search : String → Nat → List String) :
    ∀ (fs : List FileChange), (∀ f ∈ fs, f.filename ∈ S) →
      ∀ (st : FindState), FindInv S st →
        FindInv S (procFiles extract search fs st) := by
  intro fs
  induction fs with
  | nil => intro _ st h; exact h
  | cons f fs ih =>
    intro hS st h
    have hf : f.filename ∈ S := hS f (List.mem_cons_self f fs)
    have hS' : ∀ g ∈ fs, g.filename ∈ S :=
      fun g hg => hS g (List.mem_cons_of_mem f hg)
    rw [procFiles]
    by_cases hids : (extract f).isEmpty
    · rw [if_pos hids]
      exact ih hS' st h
    · rw [if_neg hids]
      have h' := procIdents_inv S f.filename search hf ((extract f).take 3) st h
      by_cases hcap : 7 ≤
          (procIdents f.filename search ((extract f).take 3) st).candidates.length
      · rw [if_pos hcap]; exact h'
      · rw [if_neg hcap]; exact ih hS' _ h'

/-- Counterexample to claim C1 as stated: with two changed files `a.ts`
(large change, identifier `findMany`) and `b.ts`, and a vector store whose
nearest document for `findMany` is a chunk of the changed file `b.ts`
(the store is indexed from the changed files themselves), the finder
returns a candidate whose filename `b.ts` equals the filename of a file in
the same `changedFiles` argument: the source only excludes the
originating file (`foundFile !== file.filename`), not the other changed
files. -/
theorem C1_counterexample :
    ∃ c ∈ findAffectedFileCandidates cxExtract cxSearch cxFiles,
      c.filename ∈ cxFiles.map FileChange.filename := by
  decide

/-- Claim C1 (amended): no candidate returned by
`findAffectedFileCandidates` has a filename equal to the filename of the
changed file whose extracted identifier triggered it: every candidate's
rationale names a source file among the analysed top changed files, and
the candidate's filename differs from that source file's name. Candidates
may, however, coincide with other changed files of the same call. -/
theorem C1_self_exclusion (extract : FileChange → List String)
    (search : String → Nat → List String) (files : List FileChange)
    (c : Candidate) (hc : c ∈ findAffectedFileCandidates extract search files) :
    ∃ src ∈ (topFiles files).map FileChange.filename,
      c.reason = mkReason src c.identifier ∧ c.filename ≠ src := by
  have hinv : FindInv ((topFiles files).map FileChange.filename)
      (procFiles extract search (topFiles files) ⟨[], []⟩) := by
    apply procFiles_inv _ extract search (topFiles files)
    · intro f hf
      exact List.mem_map_of_mem FileChange.filename hf
    · intro c hc
      simp at hc
  exact hinv c hc

/-- Witness for the amended C1 at the concrete scenario: the single
returned candidate (`b.ts`, found via `findMany`) was triggered by the
changed file `a.ts` and differs from it. -/
theorem C1_self_exclusion_witness :
    ∃ src ∈ (topFiles cxFiles).map FileChange.filename,
      (⟨"b.ts", "findMany", mkReason "a.ts" "findMany"⟩ : Candidate).reason =
        mkReason src
          (⟨"b.ts", "findMany", mkReason "a.ts" "findMany"⟩ : Candidate).identifier ∧
      (⟨"b.ts", "findMany", mkReason "a.ts" "findMany"⟩ : Candidate).filename ≠ src :=
  C1_self_exclusion cxExtract cxSearch cxFiles
    ⟨"b.ts", "findMany", mkReason "a.ts" "findMany"⟩ (by decide)

/-! ## Theorems: batch reordering (C4) -/

theorem insertByIdx_perm {β : Type} (p : Nat × β) :
    ∀ l : List (Nat × β), (insertByIdx p l).Perm (p :: l) := by
  intro l
  induction l with
  | nil => exact List.Perm.refl _
  | cons q qs ih =>
    rw [insertByIdx]
    by_cases h : p.1 ≤ q.1
    · rw [if_pos h]
    · rw [if_neg h]
      exact (List.Perm.cons q ih).trans (List.Perm.swap p q qs)

theorem sortByIdx_perm {β : Type} :
    ∀ l : List (Nat × β), (sortByIdx l).Perm l := by
  intro l
  induction l with
  | nil => exact List.Perm.refl _
  | cons p ps ih =>
    rw [sortByIdx]
    exact (insertByIdx_perm p (sortByIdx ps)).trans (List.Perm.cons p ih)

theorem insertByIdx_pairwise {β : Type} (p : Nat × β) :
    ∀ l : List (Nat × β), l.Pairwise (fun a b => a.1 ≤ b.1) →
      (insertByIdx p l).Pairwise (fun a b => a.1 ≤ b.1) := by
  intro l
  induction l with
  | nil => intro _; exact List.pairwise_singleton _ p
  | cons q qs ih =>
    intro hl
    obtain ⟨hq, hqs⟩ := List.pairwise_cons.mp hl
    rw [insertByIdx]
    by_cases h : p.1 ≤ q.1
    · rw [if_pos h]
      refine List.pairwise_cons.mpr ⟨?_, hl⟩
      intro y hy
      rcases List.mem_cons.mp hy with rfl | hy'
      · exact h
      · exact Nat.le_trans h (hq y hy')
    · rw [if_neg h]
      refine List.pairwise_cons.mpr ⟨?_, ih hqs⟩
      intro y hy
      have hy2 : y ∈ p :: qs := (insertByIdx_perm p qs).mem_iff.mp hy
      rcases List.mem_cons.mp hy2 with rfl | hy'
      · exact Nat.le_of_lt (Nat.lt_of_not_le h)
      · exact hq y hy'

theorem sortByIdx_pairwise {β : Type} :
    ∀ l : List (Nat × β),
      (sortByIdx l).Pairwise (fun a b => a.1 ≤ b.1) := by
  intro l
  induction l with
  | nil => exact List.Pairwise.nil
  | cons p ps ih => exact insertByIdx_pairwise p (sortByIdx ps) ih

theorem sorted_perm_eq {β : Type} :
    ∀ {c l : List (Nat × β)}, l.Perm c →
      l.Pairwise (fun a b => a.1 ≤ b.1) →
      c.Pairwise (fun a b => a.1 < b.1) → l = c := by
  intro c
  induction c with
  | nil =>
    intro l hp _ _
    exact hp.eq_nil
  | cons b c ih =>
    intro l hp hl hc
    cases l with
    | nil =>
      exact absurd (hp.symm.eq_nil) (List.cons_ne_nil b c)
    | cons a l' =>
      have hab : a = b := by
        by_contra hne
        have ha : a ∈ b :: c := hp.mem_iff.mp (List.mem_cons_self a l')
        have ha' : a ∈ c := by
          rcases List.mem_cons.mp ha with h | h
          · exact absurd h hne
          · exact h
        have hb : b ∈ a :: l' := hp.symm.mem_iff.mp (List.mem_cons_self b c)
        have hb' : b ∈ l' := by
          rcases List.mem_cons.mp hb with h | h
          · exact absurd h.symm hne
          · exact h
        have h1 : b.1 < a.1 := (List.pairwise_cons.mp hc).1 a ha'
        have h2 : a.1 ≤ b.1 := (List.pairwise_cons.mp hl).1 b hb'
        omega
      subst hab
      have htails : l'.Perm c := hp.cons_inv
      have := ih htails (List.pairwise_cons.mp hl).2 (List.pairwise_cons.mp hc).2
      rw [this]

theorem enumFromK_map_snd {α : Type} :
    ∀ (k : Nat) (l : List α), (enumFromK k l).map Prod.snd = l := by
  intro k l
  induction l generalizing k with
  | nil => rfl
  | cons x xs ih =>
    rw [enumFromK, List.map_cons, ih]

theorem enumFromK_key_ge {α : Type} :
    ∀ (k : Nat) (l : List α) (y : Nat × α), y ∈ enumFromK k l → k ≤ y.1 := by
  intro k l
  induction l generalizing k with
  | nil => intro y hy; exact absurd hy (List.not_mem_nil y)
  | cons x xs ih =>
    intro y hy
    rcases List.mem_cons.mp hy with rfl | hy'
    · exact Nat.le_refl k
    · exact Nat.le_trans (Nat.le_succ k) (ih (k + 1) y hy')

theorem enumFromK_key_lt {α : Type} :
    ∀ (k : Nat) (l : List α),
      (enumFromK k l).Pairwise (fun a b => a.1 < b.1) := by
  intro k l
  induction l generalizing k with
  | nil => exact List.Pairwise.nil
  | cons x xs ih =>
    rw [enumFromK]
    refine List.pairwise_cons.mpr ⟨?_, ih (k + 1)⟩
    intro y hy
    exact Nat.lt_of_lt_of_le (Nat.lt_succ_self k) (enumFromK_key_ge (k + 1) xs y hy)

theorem chunk20Go_flatten {α : Type} :
    ∀ (l acc : List α) (k : Nat),
      (chunk20Go l acc k).flatten = acc.reverse ++ l := by
  intro l
  induction l with
  | nil =>
    intro acc k
    by_cases h : acc.isEmpty
    · rw [chunk20Go, if_pos h]
      rw [List.isEmpty_iff.mp h]
      rfl
    · rw [chunk20Go, if_neg h]
      simp
  | cons x xs ih =>
    intro acc k
    cases k with
    | zero =>
      rw [chunk20Go, List.flatten_cons, ih [x] 19]
      simp
    | succ k =>
      rw [chunk20Go, ih (x :: acc) k]
      simp

theorem chunk20_flatten {α : Type} (l : List α) : (chunk20 l).flatten = l := by
  rw [chunk20, chunk20Go_flatten l [] 20]
  rfl

/-- Claim C4: for every input chunk list split into at least 2 batches and
processed by at least 2 workers, and for every order in which the workers
deliver their finished batches (any permutation of the tagged batch
results — each batch is claimed exactly once through the shared counter),
the reassembled vector list equals the input chunk list mapped through the
embedding backend: output vector order matches input chunk order. -/
theorem C4_batch_reordering (embedOne : String → Vec) (texts : List String)
    (results : List (Nat × List Vec)) (workers : Nat)
    (_hw : 2 ≤ workers)
    (_hb : 2 ≤ (chunk20 texts).length)
    (hperm : results.Perm (taggedBatchResults embedOne texts)) :
    reassembleBatches results = texts.map embedOne := by
  have h1 : sortByIdx results = taggedBatchResults embedOne texts :=
    sorted_perm_eq ((sortByIdx_perm results).trans hperm)
      (sortByIdx_pairwise results) (enumFromK_key_lt 0 _)
  rw [reassembleBatches, h1, taggedBatchResults, enumFromK_map_snd]
  rw [← List.map_flatten, chunk20_flatten]

/-- Witness for C4: 21 chunk texts (two batches) delivered in reversed
completion order by 2 workers still reassemble to the input order. -/
theorem C4_batch_reordering_witness :
    reassembleBatches ((taggedBatchResults exEmbed exTexts).reverse) =
      exTexts.map exEmbed :=
  C4_batch_reordering exEmbed exTexts
    ((taggedBatchResults exEmbed exTexts).reverse) 2
    (by decide) (by decide) (List.reverse_perm _)

/-! ## Theorems: embedding cache (C2, C6, C7) -/

theorem jsTruthy_some {s : String} (h : s ≠ "") : jsTruthy (some s) = true := by
  rw [jsTruthy]
  cases hs : s.isEmpty with
  | false => rfl
  | true => exact absurd ((String.isEmpty_iff s).mp hs) h

theorem getD_range {α : Type} :
    ∀ (l : List α) (d : α),
      (List.range l.length).map (fun i => l.getD i d) = l := by
  intro l
  induction l with
  | nil => intro d; rfl
  | cons x xs ih =>
    intro d
    rw [List.length_cons, List.range_succ_eq_map, List.map_cons, List.map_map]
    refine List.cons_eq_cons.mpr ⟨rfl, ?_⟩
    calc (List.range xs.length).map ((fun i => (x :: xs).getD i d) ∘ Nat.succ)
        = (List.range xs.length).map (fun i => xs.getD i d) := by
          apply List.map_congr_left
          intro i _
          simp [List.getD_cons_succ]
      _ = xs := ih d

theorem patchDocs_length (f : FileChange) :
    (patchDocs f).length = patchBit f := by
  rw [patchDocs, patchBit]
  by_cases h : jsTruthy f.patch
  · rw [if_pos h, if_pos h]; rfl
  · rw [if_neg h, if_neg h]; rfl

theorem chunkFile_length (ctx : RAGCtx) (f : FileChange) (c : String) :
    (chunkFile ctx f c).length = (ctx.split c).length + patchBit f := by
  rw [chunkFile, List.length_append, List.length_map, patchDocs_length]

theorem phase1_single_hit (ctx : RAGCtx) (cache : Cache) (f : FileChange)
    (c : String) (docs : List Doc) (embs : List Vec)
    (hf : f.content = some c) (hz : c ≠ "")
    (hload : loadFromCache ctx cache (ctx.hashFn c) = some (docs, embs)) :
    phase1 ctx cache ⟨[], [], [], [], 0, 0⟩ [f] =
      ⟨docs.map (fun d => ⟨d.pageContent, annotate f d.metadata⟩),
       (List.range docs.length).map (fun i => embs.getD i []),
       [], [], 1, 0⟩ := by
  rw [phase1, hf, jsTruthy_some hz]
  simp only [if_true, Option.getD_some, hload, phase1, List.nil_append]

theorem phase1_single_miss (ctx : RAGCtx) (cache : Cache) (f : FileChange)
    (c : String)
    (hf : f.content = some c) (hz : c ≠ "")
    (hload : loadFromCache ctx cache (ctx.hashFn c) = none) :
    phase1 ctx cache ⟨[], [], [], [], 0, 0⟩ [f] =
      ⟨[], [], chunkFile ctx f c, [ctx.hashFn c], 0, 1⟩ := by
  rw [phase1, hf, jsTruthy_some hz]
  simp only [if_true, Option.getD_some, hload, phase1, List.nil_append]

theorem createDocs_single_hit (ctx : RAGCtx) (cache : Cache) (f : FileChange)
    (c : String) (docs : List Doc) (embs : List Vec)
    (hf : f.content = some c) (hz : c ≠ "")
    (hload : loadFromCache ctx cache (ctx.hashFn c) = some (docs, embs)) :
    createDocumentsWithEmbeddings ctx cache [f] =
      { documents := docs.map (fun d => ⟨d.pageContent, annotate f d.metadata⟩)
        embeddings := (List.range docs.length).map (fun i => embs.getD i [])
        cacheHits := 1
        cacheMisses := 0
        cache := cache
        embedCalls := 0 } := by
  rw [createDocumentsWithEmbeddings,
    phase1_single_hit ctx cache f c docs embs hf hz hload]
  rfl

theorem saveLoop_single (ctx : RAGCtx) (f : FileChange) (c : String)
    (cache : Cache) (hf : f.content = some c) (hz : c ≠ "") :
    saveLoop ctx [f] 0 [ctx.hashFn c] (chunkFile ctx f c)
      ((chunkFile ctx f c).map (fun d => ctx.embedOne d.pageContent))
      0 1 0 cache =
    saveToCache ctx cache (ctx.hashFn c)
      ((chunkFile ctx f c).map
        (fun d => ⟨d.pageContent, { type := some (normType d.metadata.type) }⟩))
      ((chunkFile ctx f c).map (fun d => ctx.embedOne d.pageContent)) := by
  have htr : jsTruthy f.content = true := by
    rw [hf]; exact jsTruthy_some hz
  have hlen : (ctx.split c).length + patchBit f = (chunkFile ctx f c).length :=
    (chunkFile_length ctx f c).symm
  have htk1 : ((chunkFile ctx f c).drop 0).take
      ((ctx.split c).length + patchBit f) = chunkFile ctx f c := by
    rw [List.drop_zero, hlen, List.take_length]
  have htk2 : (((chunkFile ctx f c).map
        (fun d => ctx.embedOne d.pageContent)).drop 0).take
      ((ctx.split c).length + patchBit f) =
      (chunkFile ctx f c).map (fun d => ctx.embedOne d.pageContent) := by
    rw [List.drop_zero]
    apply List.take_of_length_le
    rw [List.length_map, ← hlen]
  rw [saveLoop]
  simp only [Nat.add_zero, List.get?, htr, if_true, hf, Option.getD_some,
    htk1, htk2, List.getD_cons_zero, saveLoop]
  rw [if_pos (jsTruthy_some hz)]

theorem createDocs_single_miss (ctx : RAGCtx) (cache : Cache) (f : FileChange)
    (c : String)
    (hf : f.content = some c) (hz : c ≠ "")
    (hload : loadFromCache ctx cache (ctx.hashFn c) = none)
    (hch : chunkFile ctx f c ≠ []) :
    createDocumentsWithEmbeddings ctx cache [f] =
      { documents := chunkFile ctx f c
        embeddings := (chunkFile ctx f c).map (fun d => ctx.embedOne d.pageContent)
        cacheHits := 0
        cacheMisses := 1
        cache := saveToCache ctx cache (ctx.hashFn c)
          ((chunkFile ctx f c).map
            (fun d => ⟨d.pageContent, { type := some (normType d.metadata.type) }⟩))
          ((chunkFile ctx f c).map (fun d => ctx.embedOne d.pageContent))
        embedCalls := (chunk20 (chunkFile ctx f c)).length } := by
  rw [createDocumentsWithEmbeddings, phase1_single_miss ctx cache f c hf hz hload]
  have hemp : (chunkFile ctx f c).isEmpty = false := by
    cases hck : chunkFile ctx f c with
    | nil => exact absurd hck hch
    | cons a l => rfl
  have hfil : List.filter (fun g => jsTruthy g.content) [f] = [f] := by
    have htr : jsTruthy f.content = true := by
      rw [hf]; exact jsTruthy_some hz
    simp [List.filter, htr]
  simp only [hemp, Bool.false_eq_true, if_false, List.nil_append, hfil,
    saveLoop_single ctx f c cache hf hz]

theorem createDocs_single_miss_empty (ctx : RAGCtx) (cache : Cache)
    (f : FileChange) (c : String)
    (hf : f.content = some c) (hz : c ≠ "")
    (hload : loadFromCache ctx cache (ctx.hashFn c) = none)
    (hch : chunkFile ctx f c = []) :
    createDocumentsWithEmbeddings ctx cache [f] =
      { documents := []
        embeddings := []
        cacheHits := 0
        cacheMisses := 1
        cache := cache
        embedCalls := 0 } := by
  rw [createDocumentsWithEmbeddings, phase1_single_miss ctx cache f c hf hz hload]
  simp only [hch]
  rfl

/-- Claim C6: a cache lookup under a model identity different from the one
stored in the persisted record for that content is a cache miss — the
stored vectors are never returned, and the documents and vectors of the
call are recomputed from the current split and embedding backend. -/
theorem C6_model_invalidation (ctx : RAGCtx) (cache : Cache)
    (f : FileChange) (c : String) (ce : CachedEmbedding)
    (hf : f.content = some c) (hz : c ≠ "")
    (hlk : cache.lookup (ctx.hashFn c) = some ce)
    (hm : ce.modelName ≠ ctx.model) :
    loadFromCache ctx cache (ctx.hashFn c) = none ∧
    (createDocumentsWithEmbeddings ctx cache [f]).cacheHits = 0 ∧
    (createDocumentsWithEmbeddings ctx cache [f]).cacheMisses = 1 ∧
    (createDocumentsWithEmbeddings ctx cache [f]).documents = chunkFile ctx f c ∧
    (createDocumentsWithEmbeddings ctx cache [f]).embeddings =
      (chunkFile ctx f c).map (fun d => ctx.embedOne d.pageContent) := by
  have hload : loadFromCache ctx cache (ctx.hashFn c) = none := by
    rw [loadFromCache, hlk]
    exact if_pos hm
  refine ⟨hload, ?_⟩
  by_cases hch : chunkFile ctx f c = []
  · rw [createDocs_single_miss_empty ctx cache f c hf hz hload hch]
    refine ⟨rfl, rfl, hch.symm, ?_⟩
    rw [hch]
    rfl
  · rw [createDocs_single_miss ctx cache f c hf hz hload hch]
    exact ⟨rfl, rfl, rfl, rfl⟩

/-- Witness for C6: the stale record of `cacheStale` (model `m0`, vectors
`[[9]]`) is ignored by a run configured with model `m1`. -/
theorem C6_model_invalidation_witness :
    loadFromCache ctx0 cacheStale (ctx0.hashFn "function findMany()") = none ∧
    (createDocumentsWithEmbeddings ctx0 cacheStale [f0]).cacheHits = 0 ∧
    (createDocumentsWithEmbeddings ctx0 cacheStale [f0]).cacheMisses = 1 ∧
    (createDocumentsWithEmbeddings ctx0 cacheStale [f0]).documents =
      chunkFile ctx0 f0 "function findMany()" ∧
    (createDocumentsWithEmbeddings ctx0 cacheStale [f0]).embeddings =
      (chunkFile ctx0 f0 "function findMany()").map
        (fun d => ctx0.embedOne d.pageContent) :=
  C6_model_invalidation ctx0 cacheStale f0 "function findMany()"
    ⟨"function findMany()", "m0", [], [[9]]⟩
    rfl (by decide) (by decide) (by decide)

theorem saveToCache_inv (ctx : RAGCtx) (cache : Cache) (h : String)
    (docs : List Doc) (embs : List Vec)
    (hinv : CacheLenInv cache) (hlen : docs.length = embs.length) :
    CacheLenInv (saveToCache ctx cache h docs embs) := by
  intro e he
  rw [saveToCache] at he
  rcases List.mem_cons.mp he with rfl | he'
  · exact hlen
  · exact hinv e (List.mem_filter.mp he').1

theorem saveLoop_inv (ctx : RAGCtx) (contentFiles : List FileChange)
    (hits : Nat) (hashes : List String) (uncached : List Doc)
    (newEmbs : List Vec) (hu : uncached.length = newEmbs.length) :
    ∀ (rem fileIdx fileStart : Nat) (cache : Cache), CacheLenInv cache →
      CacheLenInv (saveLoop ctx contentFiles hits hashes uncached newEmbs
        fileIdx rem fileStart cache) := by
  intro rem
  induction rem with
  | zero =>
    intro fileIdx fileStart cache h
    exact h
  | succ rem ih =>
    intro fileIdx fileStart cache h
    rw [saveLoop]
    split
    · exact ih _ _ _ h
    · split
      · apply ih
        apply saveToCache_inv _ _ _ _ _ h
        simp [hu]
      · exact ih _ _ _ h

/-- Claim C7: every cache record persisted by the embedding pipeline
stores as many documents as vectors. If every record of the initial cache
directory satisfies the length invariant, so does every record after any
`createDocumentsWithEmbeddings` call, over any file list — including calls
mixing cache hits and misses across several files. -/
theorem C7_cache_entry_lengths (ctx : RAGCtx) (cache : Cache)
    (files : List FileChange) (hinv : CacheLenInv cache) :
    CacheLenInv (createDocumentsWithEmbeddings ctx cache files).cache := by
  rw [createDocumentsWithEmbeddings]
  by_cases hemp : (phase1 ctx cache ⟨[], [], [], [], 0, 0⟩ files).uncached.isEmpty
  · simp only [hemp, if_true]
    exact hinv
  · simp only [hemp, Bool.false_eq_true, if_false]
    apply saveLoop_inv
    · simp
    · exact hinv

/-- Witness for C7 on the empty initial cache with a mixed two-file call
(`f0` twice: the second occurrence has identical content, and the updated
directory keeps the invariant). -/
theorem C7_cache_entry_lengths_witness :
    CacheLenInv (createDocumentsWithEmbeddings ctx0 [] [f0, f0]).cache :=
  C7_cache_entry_lengths ctx0 [] [f0, f0]
    (fun e he => absurd he (List.not_mem_nil e))

/-- Counterexample to claim C2 as stated: one file, empty initial cache.
The first call computes and persists; the second is a hit. The two calls
do not yield identical chunks: the cache save normalises chunk metadata to
a bare type key (defaulted to "content"), so the re-annotated cached
chunks returned by the second call carry `type = "content"` while the
freshly split chunks of the first call have no type key. The vectors are
identical and the second call makes no backend call. -/
theorem C2_counterexample :
    (createDocumentsWithEmbeddings ctx0
        (createDocumentsWithEmbeddings ctx0 [] [f0]).cache [f0]).documents ≠
      (createDocumentsWithEmbeddings ctx0 [] [f0]).documents ∧
    (createDocumentsWithEmbeddings ctx0
        (createDocumentsWithEmbeddings ctx0 [] [f0]).cache [f0]).embeddings =
      (createDocumentsWithEmbeddings ctx0 [] [f0]).embeddings ∧
    (createDocumentsWithEmbeddings ctx0
        (createDocumentsWithEmbeddings ctx0 [] [f0]).cache [f0]).embedCalls = 0 := by
  decide

/-- Claim C2 (amended): for any content string and fixed model identity,
running the cache-backed computation twice yields chunks with identical
page contents and identical vectors both times, and the second call never
invokes the embedding backend (its result comes from the persisted
record); the chunk metadata, however, may differ between the calls — the
cached chunks gain a normalised `type` annotation. -/
theorem C2_cache_idempotence (ctx : RAGCtx) (cache : Cache) (f : FileChange)
    (c : String) (hf : f.content = some c) (hz : c ≠ "") :
    (createDocumentsWithEmbeddings ctx
        (createDocumentsWithEmbeddings ctx cache [f]).cache [f]).documents.map
        Doc.pageContent =
      (createDocumentsWithEmbeddings ctx cache [f]).documents.map
        Doc.pageContent ∧
    (createDocumentsWithEmbeddings ctx
        (createDocumentsWithEmbeddings ctx cache [f]).cache [f]).embeddings =
      (createDocumentsWithEmbeddings ctx cache [f]).embeddings ∧
    (createDocumentsWithEmbeddings ctx
        (createDocumentsWithEmbeddings ctx cache [f]).cache [f]).embedCalls = 0 := by
  cases hload : loadFromCache ctx cache (ctx.hashFn c) with
  | some pr =>
    obtain ⟨docs, embs⟩ := pr
    have h1 := createDocs_single_hit ctx cache f c docs embs hf hz hload
    simp [h1]
  | none =>
    by_cases hch : chunkFile ctx f c = []
    · have h1 := createDocs_single_miss_empty ctx cache f c hf hz hload hch
      simp [h1]
    · have h1 := createDocs_single_miss ctx cache f c hf hz hload hch
      have hload2 : loadFromCache ctx
          (saveToCache ctx cache (ctx.hashFn c)
            ((chunkFile ctx f c).map
              (fun d => ⟨d.pageContent, { type := some (normType d.metadata.type) }⟩))
            ((chunkFile ctx f c).map (fun d => ctx.embedOne d.pageContent)))
          (ctx.hashFn c) =
          some ((chunkFile ctx f c).map
              (fun d => ⟨d.pageContent, { type := some (normType d.metadata.type) }⟩),
            (chunkFile ctx f c).map (fun d => ctx.embedOne d.pageContent)) := by
        rw [loadFromCache, saveToCache]
        simp only [List.lookup, beq_self_eq_true, if_true, ne_eq,
          not_true_eq_false, if_false]
      have h2 := createDocs_single_hit ctx
        (saveToCache ctx cache (ctx.hashFn c)
          ((chunkFile ctx f c).map
            (fun d => ⟨d.pageContent, { type := some (normType d.metadata.type) }⟩))
          ((chunkFile ctx f c).map (fun d => ctx.embedOne d.pageContent)))
        f c _ _ hf hz hload2
      refine ⟨?_, ?_, ?_⟩
      · simp only [h1, h2]
        simp [List.map_map, Function.comp]
      · simp only [h1, h2]
        have hlen : ((chunkFile ctx f c).map
            (fun d => (⟨d.pageContent,
              { type := some (normType d.metadata.type) }⟩ : Doc))).length =
            ((chunkFile ctx f c).map
              (fun d => ctx.embedOne d.pageContent)).length := by
          simp
        rw [hlen, getD_range]
      · simp only [h1, h2]

/-- Witness for the amended C2 at the concrete single-file scenario. -/
theorem C2_cache_idempotence_witness :
    (createDocumentsWithEmbeddings ctx0
        (createDocumentsWithEmbeddings ctx0 [] [f0]).cache [f0]).documents.map
        Doc.pageContent =
      (createDocumentsWithEmbeddings ctx0 [] [f0]).documents.map
        Doc.pageContent ∧
    (createDocumentsWithEmbeddings ctx0
        (createDocumentsWithEmbeddings ctx0 [] [f0]).cache [f0]).embeddings =
      (createDocumentsWithEmbeddings ctx0 [] [f0]).embeddings ∧
    (createDocumentsWithEmbeddings ctx0
        (createDocumentsWithEmbeddings ctx0 [] [f0]).cache [f0]).embedCalls = 0 :=
  C2_cache_idempotence ctx0 [] f0 "function findMany()" rfl (by decide)

end AIChangelog
